import Mathlib

set_option maxRecDepth 4000

/-!
Verification development for the telemetry ingestion and power-derivation
engine of carbon-kepler-mcp (src/prometheus_parser.py and
src/kepler_client.py).

Modelling conventions:
* Python floats are modelled exactly: a value is either a rational number or
  one of the special values NaN, +Inf, -Inf.  All numeric literals appearing
  in the verified scenarios are exactly representable, so no rounding is
  elided that the scenarios depend on.
* Python dicts are modelled as association lists with the dict update rule
  (assignment replaces the value in place when the key exists, otherwise
  appends), which preserves insertion order exactly as CPython does.
* `datetime.now()` is made explicit: every operation that reads the clock
  takes the current time (seconds, as a rational) as an argument.
* `logger.warning` calls are surfaced as an explicit list of warning tags in
  the result of the functions that emit them; `logger.debug`/`logger.info`
  calls carry no error information and are not modelled.
-/

/-! ### Character classes (Python `str.strip`, `re` classes, restricted to ASCII) -/

def isWS (c : Char) : Bool :=
  c = ' ' || c = '\t' || c = '\n' || c = '\r' || c = '\x0b' || c = '\x0c'

def stripWS (cs : List Char) : List Char :=
  ((cs.dropWhile isWS).reverse.dropWhile isWS).reverse

def pyStrip (s : String) : String := ⟨stripWS s.data⟩

/-- Key characters of the label regex `[a-zA-Z_][a-zA-Z0-9_]*`. -/
def isKeyStart (c : Char) : Bool := c.isAlpha || c = '_'

def isKeyChar (c : Char) : Bool := c.isAlpha || c.isDigit || c = '_'

/-- Name characters of the metric-line regex `[a-zA-Z_:][a-zA-Z0-9_:]*`. -/
def isNameStart (c : Char) : Bool := c.isAlpha || c = '_' || c = ':'

def isNameChar (c : Char) : Bool := c.isAlpha || c.isDigit || c = '_' || c = ':'

/-! ### Exact model of Python float values and of `float(str)` -/

inductive PValue where
  | num (q : ℚ)
  | nan
  | inf
  | neginf
deriving DecidableEq, Repr

def digitsToNat (ds : List Char) : ℕ :=
  ds.foldl (fun a c => 10 * a + (c.toNat - '0'.toNat)) 0

/-- Mantissa of a decimal literal with integer digits `ip` and fraction
digits `fp`. -/
def qOfMantissa (ip fp : List Char) : ℚ :=
  (digitsToNat (ip ++ fp) : ℚ) / (10 : ℚ) ^ fp.length

/-- One `digitpart` of the Python float grammar: digits with single
underscores allowed between digits.  Returns the collected digits (with the
underscores removed) and the unconsumed rest. -/
def dpAux : List Char → List Char × List Char
  | [] => ([], [])
  | '_' :: c :: rest =>
    if c.isDigit then
      let p := dpAux rest
      (c :: p.1, p.2)
    else ([], '_' :: c :: rest)
  | c :: rest =>
    if c.isDigit then
      let p := dpAux rest
      (c :: p.1, p.2)
    else ([], c :: rest)

/-- A `digitpart` must begin with a digit (never with an underscore). -/
def parseDigitpart (cs : List Char) : Option (List Char × List Char) :=
  match cs with
  | c :: _ => if c.isDigit then some (dpAux cs) else none
  | [] => none

/-- The exponent suffix `([eE][+-]?digitpart)` of a Python float literal,
applied to the mantissa `q`; the whole remainder must be consumed. -/
def parseExpAfterE (r : List Char) (q : ℚ) : Option ℚ :=
  let se : Int × List Char :=
    match r with
    | '+' :: r2 => (1, r2)
    | '-' :: r2 => (-1, r2)
    | _ => (1, r)
  match parseDigitpart se.2 with
  | some (ds, rest) =>
    if rest = [] then some (q * (10 : ℚ) ^ (se.1 * (digitsToNat ds : Int))) else none
  | none => none

def parseExpTail (cs : List Char) (q : ℚ) : Option ℚ :=
  match cs with
  | [] => some q
  | 'e' :: r => parseExpAfterE r q
  | 'E' :: r => parseExpAfterE r q
  | _ => none

/-- The numeric body of a Python float literal (sign already removed):
`digitpart`, `digitpart '.' digitpart?`, `'.' digitpart` or `digitpart '.'`,
optionally followed by an exponent. -/
def parseNumberNoSign (cs : List Char) : Option ℚ :=
  match parseDigitpart cs with
  | some (ip, r1) =>
    match r1 with
    | '.' :: r2 =>
      match parseDigitpart r2 with
      | some (fp, r3) => parseExpTail r3 (qOfMantissa ip fp)
      | none => parseExpTail r2 (qOfMantissa ip [])
    | _ => parseExpTail r1 (qOfMantissa ip [])
  | none =>
    match cs with
    | '.' :: r2 =>
      match parseDigitpart r2 with
      | some (fp, r3) => parseExpTail r3 (qOfMantissa [] fp)
      | none => none
    | _ => none

def lowerEq (cs : List Char) (w : List Char) : Bool :=
  cs.map Char.toLower = w

/-- Optional leading sign of a float literal: the sign as `1`/`-1` and the
remainder. -/
def signSplit (cs : List Char) : Int × List Char :=
  match cs with
  | c :: r => if c = '+' then (1, r) else if c = '-' then (-1, r) else (1, cs)
  | [] => (1, cs)

/-- Model of Python `float(s)`: strips whitespace, accepts an optional sign
followed by a numeric literal or `inf`/`infinity`/`nan` (case-insensitive;
the two alternatives accept disjoint strings, so the order tried is
immaterial).  Returns `none` exactly when `float` raises `ValueError`. -/
def pyFloatOfString (s : String) : Option PValue :=
  let cs := stripWS s.data
  let sgn : Int × List Char := signSplit cs
  match parseNumberNoSign sgn.2 with
  | some q => some (PValue.num ((sgn.1 : ℚ) * q))
  | none =>
    if lowerEq sgn.2 ['i', 'n', 'f'] ||
        lowerEq sgn.2 ['i', 'n', 'f', 'i', 'n', 'i', 't', 'y'] then
      some (if sgn.1 = 1 then PValue.inf else PValue.neginf)
    else if lowerEq sgn.2 ['n', 'a', 'n'] then
      some PValue.nan
    else none

/-! ### Python dict model -/

/-- Python dict assignment `d[k] = v`: replace in place when the key exists,
otherwise append.  Preserves insertion order like CPython dicts. -/
def dictUpdate {α β : Type} [BEq α] (d : List (α × β)) (k : α) (v : β) : List (α × β) :=
  if d.any (fun p => p.1 == k) then
    d.map (fun p => if p.1 == k then (k, v) else p)
  else d ++ [(k, v)]

def dictOfPairs (ps : List (String × String)) : List (String × String) :=
  ps.foldl (fun d p => dictUpdate d p.1 p.2) []

/-! ### `_parse_labels` (prometheus_parser.py lines 102-123) -/

/-- One attempted match of the label regex `([a-zA-Z_][a-zA-Z0-9_]*)="([^"]*)"`
at the current position (whose first character is a key-start character). -/
def tryPair (cs : List Char) : Option (String × String × List Char) :=
  let k := cs.takeWhile isKeyChar
  let r1 := cs.dropWhile isKeyChar
  match r1 with
  | '=' :: '"' :: r2 =>
    let v := r2.takeWhile (fun c => c ≠ '"')
    let r3 := r2.dropWhile (fun c => c ≠ '"')
    match r3 with
    | '"' :: r4 => some (⟨k⟩, ⟨v⟩, r4)
    | _ => none
  | _ => none

/-- Model of `re.findall` of the label regex: scan left to right, taking
non-overlapping leftmost matches.  Fuel-indexed; `fuel ≥ length` suffices
since every step consumes at least one character. -/
def scanLabelsAux : ℕ → List Char → List (String × String)
  | 0, _ => []
  | _ + 1, [] => []
  | fuel + 1, c :: rest =>
    if isKeyStart c then
      match tryPair (c :: rest) with
      | some (k, v, r) => (k, v) :: scanLabelsAux fuel r
      | none => scanLabelsAux fuel rest
    else scanLabelsAux fuel rest

def scanLabels (cs : List Char) : List (String × String) :=
  scanLabelsAux cs.length cs

def isBrace (c : Char) : Bool := c = '\x7b' || c = '\x7d'

/-- Python `labels_str.strip('\x7b\x7d')`: remove every leading and trailing
brace character. -/
def pyStripBraces (cs : List Char) : List Char :=
  ((cs.dropWhile isBrace).reverse.dropWhile isBrace).reverse

/-- Model of `_parse_labels`: strip the braces, then collect the regex matches into a
dict (duplicate keys: last one wins, as Python dict assignment does). -/
def parse_labels (s : String) : List (String × String) :=
  dictOfPairs (scanLabels (pyStripBraces s.data))

/-! ### `_parse_metric_line` (prometheus_parser.py lines 58-99) -/

structure PMetric where
  name : String
  labels : List (String × String)
  value : PValue
  timestamp : Option ℕ
deriving DecidableEq, Repr

/-- The value/timestamp tail `([^\s]+)(?:\s+(\d+))?$` of the metric-line
regex, starting at the first value character. -/
def splitValueTail (cs : List Char) : Option (List Char × Option (List Char)) :=
  let v := cs.takeWhile (fun c => !isWS c)
  let r := cs.dropWhile (fun c => !isWS c)
  if v = [] then none
  else if r = [] then some (v, none)
  else
    let d := r.dropWhile isWS
    if d ≠ [] ∧ d.all Char.isDigit then some (v, some d) else none

/-- Building the metric after the regex has split the line: parse labels,
parse the value with `float` (with the dead fallback branch for
`NaN`/`+Inf`/`-Inf`, transcribed from the source), parse the timestamp. -/
def mkPMetric (nm : List Char) (lbl : Option (List Char)) (v : List Char)
    (ts : Option (List Char)) : Option PMetric :=
  let labels : List (String × String) :=
    match lbl with
    | some l => parse_labels ⟨l⟩
    | none => []
  let value? : Option PValue :=
    match pyFloatOfString ⟨v⟩ with
    | some pv => some pv
    | none =>
      if v = ['N', 'a', 'N'] then some PValue.nan
      else if v = ['+', 'I', 'n', 'f'] then some PValue.inf
      else if v = ['-', 'I', 'n', 'f'] then some PValue.neginf
      else none
  match value? with
  | some pv => some ⟨⟨nm⟩, labels, pv, ts.map digitsToNat⟩
  | none => none

/-- The no-labels alternative of the metric-line regex: after the name there
must be at least one whitespace character, then the value tail. -/
def fallbackNoLabels (nm rest : List Char) : Option PMetric :=
  if rest.takeWhile isWS = [] then none
  else
    match splitValueTail (rest.dropWhile isWS) with
    | some (v, ts) => mkPMetric nm none v ts
    | none => none

/-- Full-line match of
`^([a-zA-Z_:][a-zA-Z0-9_:]*)\s*(\x7b[^\x7d]*\x7d)?\s+([^\s]+)(?:\s+(\d+))?$`
with Python backtracking semantics: the labels alternative is tried first
(the optional group is greedy); if it cannot be completed the no-labels
alternative is tried on the same remainder. -/
def parseLineChars (cs : List Char) : Option PMetric :=
  match cs with
  | [] => none
  | c :: rest =>
    if isNameStart c then
      let nm := c :: rest.takeWhile isNameChar
      let r0 := rest.dropWhile isNameChar
      match r0.dropWhile isWS with
      | '\x7b' :: r2 =>
        let inside := r2.takeWhile (fun d => d ≠ '\x7d')
        match r2.dropWhile (fun d => d ≠ '\x7d') with
        | '\x7d' :: r4 =>
          if r4.takeWhile isWS = [] then fallbackNoLabels nm r0
          else
            match splitValueTail (r4.dropWhile isWS) with
            | some (v, ts) => mkPMetric nm (some ('\x7b' :: (inside ++ ['\x7d']))) v ts
            | none => fallbackNoLabels nm r0
        | _ => fallbackNoLabels nm r0
      | _ => fallbackNoLabels nm r0
    else none

def parse_metric_line (s : String) : Option PMetric :=
  parseLineChars s.data

/-! ### `parse_prometheus_text` (prometheus_parser.py lines 24-55) -/

/-- The body of the per-line loop: strip the line, skip blank and comment
lines, otherwise attempt the metric-line parse. -/
def procLine (l : String) : Option PMetric :=
  let cs := stripWS l.data
  if cs = [] then none
  else if cs.head? = some '#' then none
  else parseLineChars cs

def parseLines (ls : List String) : List PMetric :=
  ls.filterMap procLine

/-- Python `s.split('\n')`: split at every newline; `""` yields `[""]`. -/
def splitNl : List Char → List (List Char)
  | [] => [[]]
  | c :: rest =>
    let r := splitNl rest
    if c = '\n' then [] :: r
    else
      match r with
      | [] => [[c]]
      | l :: ls => (c :: l) :: ls

def parse_prometheus_text (t : String) : List PMetric :=
  parseLines ((splitNl (pyStrip t).data).map (fun cs => ⟨cs⟩))

/-! ### Metric query layer (prometheus_parser.py lines 126-219) -/

def labelsGet (d : List (String × String)) (k : String) : Option String :=
  (d.find? (fun p => p.1 == k)).map Prod.snd

/-- Model of `filter_metrics`: note the Python truthiness tests `if name:` and
`if labels:` — the empty string and the empty dict disable the
corresponding filter entirely. -/
def filter_metrics (metrics : List PMetric) (name : Option String)
    (labels : Option (List (String × String))) : List PMetric :=
  let f1 :=
    match name with
    | some s => if s = "" then metrics else metrics.filter (fun m => m.name == s)
    | none => metrics
  match labels with
  | some l =>
    if l = [] then f1
    else f1.filter (fun m => l.all (fun p => labelsGet m.labels p.1 == some p.2))
  | none => f1

def get_metric_value (metrics : List PMetric) (name : String)
    (labels : Option (List (String × String))) (default : PValue) : PValue :=
  match filter_metrics metrics (some name) labels with
  | [] => default
  | m :: _ => m.value

/-- IEEE-style addition on the exact float model (Python `+` on floats). -/
def pvAdd : PValue → PValue → PValue
  | PValue.nan, _ => PValue.nan
  | _, PValue.nan => PValue.nan
  | PValue.inf, PValue.neginf => PValue.nan
  | PValue.neginf, PValue.inf => PValue.nan
  | PValue.inf, _ => PValue.inf
  | _, PValue.inf => PValue.inf
  | PValue.neginf, _ => PValue.neginf
  | _, PValue.neginf => PValue.neginf
  | PValue.num a, PValue.num b => PValue.num (a + b)

/-- Python `sum(values)` (starts from 0). -/
def pvSum (vs : List PValue) : PValue := vs.foldl pvAdd (PValue.num 0)

/-- Division of a float by a positive list length (`sum(values)/len(values)`).
The `n = 0` case is unreachable in the source (guarded by the empty check). -/
def pvDivNat (v : PValue) (n : ℕ) : PValue :=
  match v with
  | PValue.num q => PValue.num (q / (n : ℚ))
  | PValue.nan => PValue.nan
  | PValue.inf => PValue.inf
  | PValue.neginf => PValue.neginf

/-- Python `<` on floats (any comparison with NaN is false). -/
def pvLt : PValue → PValue → Bool
  | PValue.nan, _ => false
  | _, PValue.nan => false
  | PValue.neginf, PValue.neginf => false
  | PValue.neginf, _ => true
  | _, PValue.neginf => false
  | PValue.inf, _ => false
  | _, PValue.inf => true
  | PValue.num a, PValue.num b => decide (a < b)

/-- Python `min` over a nonempty list (first element wins on incomparable). -/
def pyMin (v : PValue) (vs : List PValue) : PValue :=
  vs.foldl (fun acc x => if pvLt x acc then x else acc) v

/-- Python `max` over a nonempty list (first element wins on incomparable). -/
def pyMax (v : PValue) (vs : List PValue) : PValue :=
  vs.foldl (fun acc x => if pvLt acc x then x else acc) v

/-- Model of `aggregate_metrics`: returns `Except.error` exactly where the source
raises `ValueError`. -/
def aggregate_metrics (metrics : List PMetric) (name : String)
    (labels : Option (List (String × String))) (aggregation : String) :
    Except String PValue :=
  match filter_metrics metrics (some name) labels with
  | [] => Except.ok (PValue.num 0)
  | m :: rest =>
    let values := (m :: rest).map PMetric.value
    if aggregation = "sum" then Except.ok (pvSum values)
    else if aggregation = "avg" then Except.ok (pvDivNat (pvSum values) values.length)
    else if aggregation = "min" then Except.ok (pyMin m.value (rest.map PMetric.value))
    else if aggregation = "max" then Except.ok (pyMax m.value (rest.map PMetric.value))
    else Except.error ("Unknown aggregation method: " ++ aggregation)

/-! ### `KeplerMetricsCache` (kepler_client.py lines 24-49) -/

structure KeplerMetricsCache where
  ttl_seconds : ℚ
  cache : List (String × (ℚ × List PMetric))
deriving DecidableEq

namespace KeplerMetricsCache

/-- Model of `get`: miss when absent; lazily evict and miss when the entry is older
than the TTL; otherwise return the cached snapshot.  `now` is the value of
`datetime.now()` in seconds; the updated cache is returned alongside the
result because eviction mutates it. -/
def get (c : KeplerMetricsCache) (key : String) (now : ℚ) :
    Option (List PMetric) × KeplerMetricsCache :=
  match c.cache.find? (fun p => p.1 == key) with
  | none => (none, c)
  | some (_, (ts, metrics)) =>
    if now - ts > c.ttl_seconds then
      (none, ⟨c.ttl_seconds, c.cache.filter (fun p => p.1 != key)⟩)
    else (some metrics, c)

/-- Model of `set`: unconditionally store `(now, metrics)` under `key`. -/
def set (c : KeplerMetricsCache) (key : String) (metrics : List PMetric)
    (now : ℚ) : KeplerMetricsCache :=
  ⟨c.ttl_seconds, dictUpdate c.cache key (now, metrics)⟩

end KeplerMetricsCache

/-! ### Power derivation tracker (kepler_client.py lines 185-312 and 415-456) -/

structure JoulesReading where
  total_joules : ℚ
  cpu_joules : ℚ
  dram_joules : ℚ
deriving DecidableEq, Repr

structure PowerResult where
  cpu_watts : ℚ
  dram_watts : ℚ
  total_watts : ℚ
  measurement_status : String
deriving DecidableEq, Repr

/-- The per-entity `_power_measurement_cache`: entity key to
`(timestamp, joule readings)`. -/
structure PowerMeasurementCache where
  entries : List (String × (ℚ × JoulesReading))
deriving DecidableEq

/-- Model of `calculate_power_from_energy`.  The second component lists the
`logger.warning` tags the source emits on the corresponding branch. -/
def calculate_power_from_energy (energy_joules_t1 energy_joules_t2 time_seconds : ℚ) :
    ℚ × List String :=
  if time_seconds ≤ 0 then (0, ["calculate_power_invalid_time"])
  else if energy_joules_t2 - energy_joules_t1 < 0 then
    (0, ["calculate_power_negative_delta"])
  else ((energy_joules_t2 - energy_joules_t1) / time_seconds, [])

/-- Model of `get_pod_power_watts`.  The metric fetch (`get_pod_metrics`, which goes
through HTTP) is replaced by the fetched joule reading `current`, passed as
an argument; `current_time` is `datetime.now()` in seconds.  The tracker
logic follows the source line by line.  Result: the returned power/status
record, the warnings emitted, and the updated measurement cache. -/
def get_pod_power_watts (st : PowerMeasurementCache) (pod_name pod_namespace : String)
    (measurement_interval_seconds : ℚ) (current_time : ℚ) (current : JoulesReading) :
    PowerResult × List String × PowerMeasurementCache :=
  let cache_key := "pod:" ++ pod_namespace ++ "/" ++ pod_name
  match st.entries.find? (fun p => p.1 == cache_key) with
  | none =>
    (⟨0, 0, 0, "initializing"⟩, [],
      ⟨st.entries ++ [(cache_key, (current_time, current))]⟩)
  | some (_, (prev_time, prev)) =>
    let time_delta_seconds := current_time - prev_time
    if time_delta_seconds < measurement_interval_seconds then
      (⟨0, 0, 0, "waiting_for_interval"⟩, [], st)
    else
      let total := calculate_power_from_energy prev.total_joules current.total_joules
        time_delta_seconds
      let cpu := calculate_power_from_energy prev.cpu_joules current.cpu_joules
        time_delta_seconds
      let dram := calculate_power_from_energy prev.dram_joules current.dram_joules
        time_delta_seconds
      (⟨cpu.1, dram.1, total.1, "active"⟩, total.2 ++ cpu.2 ++ dram.2,
        ⟨dictUpdate st.entries cache_key (current_time, current)⟩)

/-! ### The spec's line grammar (spec §4.1), formalised from the spec's words

These definitions follow the specification text, not the source: they are the
comparison point for the refinement claims about the decoder.  Grammar:
`<metric_name> [ "\x7b" label_list "\x7d" ] <ws> <value> [ <ws> <integer_timestamp> ]`
where a label value may contain any character except an unescaped quote
(a backslash escapes the following character), and `value` is a decimal
float literal or one of `NaN`, `+Inf`, `-Inf`. -/

/-- Spec decimal float literal body (sign removed): digits with an optional
fraction part. -/
def specDecimalBody (cs : List Char) : Option ℚ :=
  let ip := cs.takeWhile Char.isDigit
  let r1 := cs.dropWhile Char.isDigit
  match r1 with
  | [] => if ip = [] then none else some (qOfMantissa ip [])
  | '.' :: r2 =>
    let fp := r2.takeWhile Char.isDigit
    let r3 := r2.dropWhile Char.isDigit
    if r3 = [] ∧ (ip ≠ [] ∨ fp ≠ []) then some (qOfMantissa ip fp) else none
  | _ => none

/-- Spec `<value>` token: `NaN`, `+Inf`, `-Inf`, or a signed decimal float
literal. -/
def specValueTok (cs : List Char) : Option PValue :=
  if cs = ['N', 'a', 'N'] then some PValue.nan
  else if cs = ['+', 'I', 'n', 'f'] then some PValue.inf
  else if cs = ['-', 'I', 'n', 'f'] then some PValue.neginf
  else
    let sgn : Int × List Char := signSplit cs
    match specDecimalBody sgn.2 with
    | some q => some (PValue.num ((sgn.1 : ℚ) * q))
    | none => none

/-- Spec label value: characters up to the terminating unescaped quote; a
backslash escapes the following character.  Returns the denoted (unescaped)
value and the rest after the closing quote. -/
def specLabelValChars : List Char → Option (List Char × List Char)
  | [] => none
  | '"' :: r => some ([], r)
  | '\\' :: c :: r =>
    match specLabelValChars r with
    | some (v, rest) => some (c :: v, rest)
    | none => none
  | c :: r =>
    match specLabelValChars r with
    | some (v, rest) => some (c :: v, rest)
    | none => none

/-- Spec `key="value"` pair. -/
def specPair (cs : List Char) : Option ((String × String) × List Char) :=
  match cs with
  | c :: r =>
    if isKeyStart c then
      let k := c :: r.takeWhile isKeyChar
      let r1 := r.dropWhile isKeyChar
      match r1 with
      | '=' :: '"' :: r2 =>
        match specLabelValChars r2 with
        | some (v, rest) => some ((⟨k⟩, ⟨v⟩), rest)
        | none => none
      | _ => none
    else none
  | [] => none

/-- Spec `label_list`: one or more pairs separated by commas (the zero-pair
case is handled at the call site).  Fuel-indexed; `fuel ≥ length + 1`
suffices. -/
def specPairsAux : ℕ → List Char → Option (List (String × String) × List Char)
  | 0, _ => none
  | fuel + 1, cs =>
    match specPair cs with
    | some (p, rest) =>
      match rest with
      | ',' :: rest2 =>
        match specPairsAux fuel rest2 with
        | some (ps, r) => some (p :: ps, r)
        | none => none
      | _ => some ([p], rest)
    | none => none

/-- Whitespace-separated tokens of the remainder of a line. -/
def splitWSTokensAux : ℕ → List Char → List (List Char)
  | 0, _ => []
  | fuel + 1, cs =>
    let cs' := cs.dropWhile isWS
    match cs'.takeWhile (fun c => !isWS c) with
    | [] => []
    | tok => tok :: splitWSTokensAux fuel (cs'.dropWhile (fun c => !isWS c))

def splitWSTokens (cs : List Char) : List (List Char) :=
  splitWSTokensAux (cs.length + 1) cs

/-- Tail of a spec-conformant line after the name and optional label
section: mandatory whitespace, the value token, optionally whitespace and a
digit timestamp. -/
def specFinish (nm : List Char) (ps : List (String × String)) (rest : List Char) :
    Option PMetric :=
  if rest.takeWhile isWS = [] then none
  else
    match splitWSTokens (rest.dropWhile isWS) with
    | [v] =>
      match specValueTok v with
      | some pv => some ⟨⟨nm⟩, dictOfPairs ps, pv, none⟩
      | none => none
    | [v, t] =>
      if t ≠ [] ∧ t.all Char.isDigit then
        match specValueTok v with
        | some pv => some ⟨⟨nm⟩, dictOfPairs ps, pv, some (digitsToNat t)⟩
        | none => none
      else none
    | _ => none

/-- The spec's line grammar as a parser: `some r` when the line is
grammar-conformant and denotes the record `r`, `none` when the line is
malformed per the grammar.  Duplicate label keys resolve last-wins, the
option §9 of the spec designates. -/
def specParseLine (s : String) : Option PMetric :=
  match s.data with
  | [] => none
  | c :: rest =>
    if isNameStart c then
      let nm := c :: rest.takeWhile isNameChar
      let r0 := rest.dropWhile isNameChar
      match r0 with
      | '\x7b' :: r1 =>
        match r1 with
        | '\x7d' :: r2 => specFinish nm [] r2
        | _ =>
          match specPairsAux (r1.length + 1) r1 with
          | some (ps, rest2) =>
            match rest2 with
            | '\x7d' :: r2 => specFinish nm ps r2
            | _ => none
          | none => none
      | _ => specFinish nm [] r0
    else none

/-! ### Auxiliary definitions used by the theorem statements -/

/-- A record matches a query: name equality plus label superset match
(every requested pair present with the same value). -/
def recordMatches (name : String) (labels : Option (List (String × String)))
    (m : PMetric) : Bool :=
  m.name == name &&
    (match labels with
     | none => true
     | some l => l.all (fun p => labelsGet m.labels p.1 == some p.2))

/-- Text of one `key="value"` label pair. -/
def labelPairText (p : String × String) : List Char :=
  p.1.data ++ '=' :: '"' :: (p.2.data ++ ['"'])

/-- Text of a comma-separated label list. -/
def labelListText : List (String × String) → List Char
  | [] => []
  | p :: rest =>
    labelPairText p ++ (match rest with | [] => [] | _ :: _ => ',' :: labelListText rest)

/-- Text of the optional brace-delimited label section. -/
def lblText : Option (List (String × String)) → List Char
  | some ps => '\x7b' :: (labelListText ps ++ ['\x7d'])
  | none => []

/-- Text of the optional whitespace-plus-timestamp tail. -/
def tsText : Option (List Char × List Char) → List Char
  | some pr => pr.1 ++ pr.2
  | none => []

/-- Text of a grammar-conformant line built from its components: name, an
optional brace-delimited label list, mandatory whitespace, the value token,
and an optional whitespace-separated digit timestamp. -/
def lineText (nm : String) (lbls : Option (List (String × String)))
    (ws1 : List Char) (v : List Char) (ts : Option (List Char × List Char)) :
    List Char :=
  nm.data ++ lblText lbls ++ ws1 ++ v ++ tsText ts

def validNameB (nm : String) : Bool :=
  match nm.data with
  | c :: r => isNameStart c && r.all isNameChar
  | [] => false

def validKeyB (k : String) : Bool :=
  match k.data with
  | c :: r => isKeyStart c && r.all isKeyChar
  | [] => false

/-- Label values in the amended grammar: any character except a quote and
except a closing brace (escape sequences are not processed). -/
def validLabelValB (v : String) : Bool :=
  v.data.all (fun c => c ≠ '"' && c ≠ '\x7d')

def wsRunB (ws : List Char) : Bool := !ws.isEmpty && ws.all isWS

def digitRunB (ds : List Char) : Bool := !ds.isEmpty && ds.all Char.isDigit

def tsWF : Option (List Char × List Char) → Prop
  | none => True
  | some pr => wsRunB pr.1 = true ∧ digitRunB pr.2 = true

/-! ### General helper lemmas -/

theorem takeWhile_append_of {p : Char → Bool} :
    ∀ (xs ys : List Char), (∀ c ∈ xs, p c = true) →
      (∀ c, ys.head? = some c → p c = false) →
      (xs ++ ys).takeWhile p = xs ∧ (xs ++ ys).dropWhile p = ys := by
  intro xs
  induction xs with
  | nil =>
    intro ys _ h2
    cases ys with
    | nil => simp
    | cons c t => simp [List.takeWhile, List.dropWhile, h2 c rfl]
  | cons x t ih =>
    intro ys h1 h2
    have hx : p x = true := h1 x (by simp)
    have := ih ys (fun c hc => h1 c (by simp [hc])) h2
    simp [List.takeWhile, List.dropWhile, hx, this.1, this.2]

theorem mem_takeWhile_of {p : Char → Bool} :
    ∀ (l : List Char) (c : Char), c ∈ l.takeWhile p → p c = true := by
  intro l
  induction l with
  | nil => intro c hc; simp [List.takeWhile] at hc
  | cons x t ih =>
    intro c hc
    by_cases hx : p x
    · simp [List.takeWhile, hx] at hc
      rcases hc with h | h
      · exact h ▸ hx
      · exact ih c h
    · simp [List.takeWhile, Bool.of_not_eq_true hx] at hc

theorem dropWhile_head_false {p : Char → Bool} :
    ∀ (l : List Char) (c : Char) (rest : List Char),
      l.dropWhile p = c :: rest → p c = false := by
  intro l
  induction l with
  | nil => intro c rest h; simp [List.dropWhile] at h
  | cons x t ih =>
    intro c rest h
    by_cases hx : p x
    · rw [List.dropWhile_cons_of_pos hx] at h
      exact ih c rest h
    · rw [List.dropWhile_cons_of_neg hx] at h
      cases h
      exact Bool.of_not_eq_true hx

theorem find?_eq_head?_filter {α : Type} (p : α → Bool) :
    ∀ (l : List α), (l.filter p).head? = l.find? p := by
  intro l
  induction l with
  | nil => rfl
  | cons a t ih => by_cases h : p a <;> simp [List.find?, h, ih]

theorem find?_dictUpdate {β : Type} :
    ∀ (d : List (String × β)) (k : String) (v : β),
      (dictUpdate d k v).find? (fun p => p.1 == k) = some (k, v) := by
  intro d k v
  induction d with
  | nil => simp [dictUpdate, List.find?]
  | cons q t ih =>
    cases h1 : (q.1 == k) with
    | true =>
      have hany : ((q :: t).any fun p => p.1 == k) = true := by
        simp [List.any_cons, h1]
      rw [dictUpdate, if_pos hany, List.map_cons, if_pos h1]
      exact List.find?_cons_of_pos _ (by simp)
    | false =>
      cases h2 : (t.any fun p => p.1 == k) with
      | true =>
        have hany : ((q :: t).any fun p => p.1 == k) = true := by
          simp [List.any_cons, h2]
        rw [dictUpdate, if_pos hany, List.map_cons, if_neg (by simp [h1])]
        rw [List.find?_cons_of_neg _ (by simp [h1])]
        rw [dictUpdate, if_pos h2] at ih
        exact ih
      | false =>
        have hany : ((q :: t).any fun p => p.1 == k) = false := by
          simp [List.any_cons, h1, h2]
        rw [dictUpdate, if_neg (by simp [hany]), List.cons_append]
        rw [List.find?_cons_of_neg _ (by simp [h1])]
        rw [dictUpdate, if_neg (by simp [h2])] at ih
        exact ih

theorem find?_filter_ne {β : Type} :
    ∀ (d : List (String × β)) (k : String),
      (d.filter (fun p => p.1 != k)).find? (fun p => p.1 == k) = none := by
  intro d k
  induction d with
  | nil => rfl
  | cons q t ih =>
    cases h : (q.1 == k) with
    | true =>
      rw [List.filter_cons_of_neg (by simp [bne, h])]
      exact ih
    | false =>
      rw [List.filter_cons_of_pos (by simp [bne, h])]
      rw [List.find?_cons_of_neg _ (by simp [h])]
      exact ih

/-! ### Claims about the metric query layer -/

/-- Claim C10: passing `name = ""` to `filter_metrics` disables name
filtering entirely (it behaves as if `name` were omitted, so a record named
`""` can never be selected by name), and passing an empty labels mapping
disables label filtering. -/
theorem claim_C10_empty_filters_disabled :
    (∀ (ms : List PMetric) (labels : Option (List (String × String))),
       filter_metrics ms (some "") labels = filter_metrics ms none labels) ∧
    (∀ (ms : List PMetric) (name : Option String),
       filter_metrics ms name (some []) = filter_metrics ms name none) := by
  constructor
  · intro ms labels
    rfl
  · intro ms name
    rfl

/-- Claim C5: aggregation over an empty filter
result returns 0.0 for each of the four operators. -/
theorem claim_C5_empty_aggregate_zero :
    ∀ (ms : List PMetric) (name : String) (labels : Option (List (String × String))),
      filter_metrics ms (some name) labels = [] →
      aggregate_metrics ms name labels "sum" = Except.ok (PValue.num 0) ∧
      aggregate_metrics ms name labels "avg" = Except.ok (PValue.num 0) ∧
      aggregate_metrics ms name labels "min" = Except.ok (PValue.num 0) ∧
      aggregate_metrics ms name labels "max" = Except.ok (PValue.num 0) := by
  intro ms name labels h
  refine ⟨?_, ?_, ?_, ?_⟩ <;> · rw [aggregate_metrics, h]

/-- Witness for C5 at a concrete input. -/
theorem claim_C5_witness :
    filter_metrics [] (some "kepler_node_dram_joules_total") none = [] ∧
    aggregate_metrics [] "kepler_node_dram_joules_total" none "avg" =
      Except.ok (PValue.num 0) := by
  refine ⟨rfl, ?_⟩
  exact (claim_C5_empty_aggregate_zero [] "kepler_node_dram_joules_total" none rfl).2.1

/-- Counterexample to claim C4 as stated: with a list of records whose
filter result is empty, an operator outside the enumerated set does NOT
raise — `aggregate_metrics` returns `0.0` before the operator is even
inspected. -/
theorem claim_C4_counterexample :
    aggregate_metrics [] "kepler_node_cpu_joules_total" none "median" =
      Except.ok (PValue.num 0) := by
  rfl

/-- Claim C4 as amended: whenever the filter result is nonempty, an
aggregation operator outside {sum, avg, min, max} raises a `ValueError`
(surfaced here as `Except.error`) rather than returning a value. -/
theorem claim_C4_unknown_op_raises :
    ∀ (ms : List PMetric) (name : String) (labels : Option (List (String × String)))
      (op : String),
      filter_metrics ms (some name) labels ≠ [] →
      op ≠ "sum" → op ≠ "avg" → op ≠ "min" → op ≠ "max" →
      aggregate_metrics ms name labels op =
        Except.error ("Unknown aggregation method: " ++ op) := by
  intro ms name labels op h hs ha hmin hmax
  rw [aggregate_metrics]
  cases hf : filter_metrics ms (some name) labels with
  | nil => exact absurd hf h
  | cons m rest => simp [hs, ha, hmin, hmax]

/-- Witness for the amended C4 at a concrete input. -/
theorem claim_C4_witness :
    filter_metrics [⟨"m", [], PValue.num 1, none⟩] (some "m") none ≠ [] ∧
    aggregate_metrics [⟨"m", [], PValue.num 1, none⟩] "m" none "median" =
      Except.error ("Unknown aggregation method: " ++ "median") := by
  refine ⟨by decide, ?_⟩
  exact claim_C4_unknown_op_raises [⟨"m", [], PValue.num 1, none⟩] "m" none "median"
    (by decide) (by decide) (by decide) (by decide) (by decide)

/-! ### Claims about the power derivation tracker -/

/-- Power is zero whenever the counter decreased, for any elapsed time. -/
theorem calculate_power_zero_of_decrease (t1 t2 dt : ℚ) (h : t2 < t1) :
    (calculate_power_from_energy t1 t2 dt).1 = 0 := by
  rw [calculate_power_from_energy]
  split_ifs with h1 h2
  · rfl
  · rfl
  · exact absurd (by linarith : t2 - t1 < 0) h2

/-- Claim C1: the three-call scenario.  First call: power 0.0, status
"initializing", reading stored as baseline.  Second call 2s later: power
0.0, status "waiting_for_interval", baseline untouched.  Third call 6s
after the first with cumulative joules 200.0 against the original 100.0
baseline: status "active", power (200 - 100) / 6 measured from the original
baseline, which is then replaced by the third reading. -/
theorem claim_C1_observe_scenario :
    get_pod_power_watts ⟨[]⟩ "a" "default" 5 0 ⟨100, 100, 0⟩ =
      (⟨0, 0, 0, "initializing"⟩, [],
        ⟨[("pod:default/a", (0, ⟨100, 100, 0⟩))]⟩) ∧
    get_pod_power_watts ⟨[("pod:default/a", (0, ⟨100, 100, 0⟩))]⟩ "a" "default" 5 2
        ⟨150, 150, 0⟩ =
      (⟨0, 0, 0, "waiting_for_interval"⟩, [],
        ⟨[("pod:default/a", (0, ⟨100, 100, 0⟩))]⟩) ∧
    get_pod_power_watts ⟨[("pod:default/a", (0, ⟨100, 100, 0⟩))]⟩ "a" "default" 5 6
        ⟨200, 200, 0⟩ =
      (⟨(200 - 100) / 6, 0, (200 - 100) / 6, "active"⟩, [],
        ⟨[("pod:default/a", (6, ⟨200, 200, 0⟩))]⟩) := by
  have e : "pod:" ++ "default" ++ "/" ++ "a" = "pod:default/a" := by decide
  refine ⟨rfl, ?_, ?_⟩
  · rw [get_pod_power_watts, e]
    norm_num [List.find?]
  · rw [get_pod_power_watts, e]
    norm_num [List.find?, calculate_power_from_energy, dictUpdate]

/-- Claim C2: on a counter reset (every component of the new reading
strictly below the stored baseline) with the minimum interval elapsed, the
tracker returns power 0.0 — never negative — with status "active", and
still re-anchors the stored baseline to the new reading. -/
theorem claim_C2_counter_reset :
    ∀ (st : PowerMeasurementCache) (pn ns : String) (interval now t0 : ℚ)
      (k0 : String) (prev cur : JoulesReading),
      st.entries.find? (fun p => p.1 == "pod:" ++ ns ++ "/" ++ pn) =
        some (k0, (t0, prev)) →
      interval ≤ now - t0 →
      cur.total_joules < prev.total_joules →
      cur.cpu_joules < prev.cpu_joules →
      cur.dram_joules < prev.dram_joules →
      (get_pod_power_watts st pn ns interval now cur).1 = ⟨0, 0, 0, "active"⟩ ∧
      (get_pod_power_watts st pn ns interval now cur).2.2 =
        ⟨dictUpdate st.entries ("pod:" ++ ns ++ "/" ++ pn) (now, cur)⟩ := by
  intro st pn ns interval now t0 k0 prev cur hfind hel ht hc hd
  have hns : ¬(now - t0 < interval) := not_lt.mpr hel
  rw [get_pod_power_watts, hfind]
  simp only [if_neg hns]
  refine ⟨?_, trivial⟩
  simp [calculate_power_zero_of_decrease _ _ _ ht,
    calculate_power_zero_of_decrease _ _ _ hc,
    calculate_power_zero_of_decrease _ _ _ hd]

/-- Witness for C2 at a concrete input (the spec's pod:b scenario). -/
theorem claim_C2_witness :
    (⟨[("pod:default/b", (0, ⟨500, 400, 100⟩))]⟩ :
        PowerMeasurementCache).entries.find?
        (fun p => p.1 == "pod:" ++ "default" ++ "/" ++ "b") =
      some ("pod:default/b", (0, ⟨500, 400, 100⟩)) ∧
    (5 : ℚ) ≤ 10 - 0 ∧
    (get_pod_power_watts ⟨[("pod:default/b", (0, ⟨500, 400, 100⟩))]⟩ "b" "default"
        5 10 ⟨300, 200, 50⟩).1 = ⟨0, 0, 0, "active"⟩ := by
  refine ⟨by decide, by norm_num, ?_⟩
  exact (claim_C2_counter_reset ⟨[("pod:default/b", (0, ⟨500, 400, 100⟩))]⟩ "b"
    "default" 5 10 0 "pod:default/b" ⟨500, 400, 100⟩ ⟨300, 200, 50⟩ (by decide)
    (by norm_num) (by norm_num) (by norm_num) (by norm_num)).1

/-- Counterexample to claim C9 as stated: with a stored baseline at t0 = 5,
a call at now = 3 (elapsed -2 ≤ 0, clock went backwards) and the default
positive minimum interval returns power 0.0 and keeps the baseline, but it
does NOT flag any error condition: no warning is emitted and the returned
status is the ordinary "waiting_for_interval", because the non-positive
elapsed time is swallowed by the minimum-interval check before the error
branch of `calculate_power_from_energy` can be reached. -/
theorem claim_C9_counterexample :
    get_pod_power_watts ⟨[("pod:default/b", (5, ⟨100, 100, 0⟩))]⟩ "b" "default" 5 3
        ⟨100, 100, 0⟩ =
      (⟨0, 0, 0, "waiting_for_interval"⟩, [],
        ⟨[("pod:default/b", (5, ⟨100, 100, 0⟩))]⟩) := by
  have e : "pod:" ++ "default" ++ "/" ++ "b" = "pod:default/b" := by decide
  rw [get_pod_power_watts, e]
  norm_num [List.find?]

/-- Claim C9 as amended: with a stored baseline, a positive minimum
sampling interval and non-positive elapsed time, the call returns power
0.0, leaves the stored baseline untouched, and emits no warning — it
reports the ordinary "waiting_for_interval" status rather than flagging an
error. -/
theorem claim_C9_nonpositive_elapsed :
    ∀ (st : PowerMeasurementCache) (pn ns : String) (interval now t0 : ℚ)
      (k0 : String) (prev cur : JoulesReading),
      st.entries.find? (fun p => p.1 == "pod:" ++ ns ++ "/" ++ pn) =
        some (k0, (t0, prev)) →
      now - t0 ≤ 0 →
      0 < interval →
      get_pod_power_watts st pn ns interval now cur =
        (⟨0, 0, 0, "waiting_for_interval"⟩, [], st) := by
  intro st pn ns interval now t0 k0 prev cur hfind hel hpos
  rw [get_pod_power_watts, hfind]
  simp only [if_pos (by linarith : now - t0 < interval)]

/-- Witness for the amended C9 at a concrete input. -/
theorem claim_C9_witness :
    (⟨[("pod:default/c", (5, ⟨100, 100, 0⟩))]⟩ :
        PowerMeasurementCache).entries.find?
        (fun p => p.1 == "pod:" ++ "default" ++ "/" ++ "c") =
      some ("pod:default/c", (5, ⟨100, 100, 0⟩)) ∧
    get_pod_power_watts ⟨[("pod:default/c", (5, ⟨100, 100, 0⟩))]⟩ "c" "default" 5 3
        ⟨100, 100, 0⟩ =
      (⟨0, 0, 0, "waiting_for_interval"⟩, [],
        ⟨[("pod:default/c", (5, ⟨100, 100, 0⟩))]⟩) := by
  refine ⟨by decide, ?_⟩
  exact claim_C9_nonpositive_elapsed ⟨[("pod:default/c", (5, ⟨100, 100, 0⟩))]⟩ "c"
    "default" 5 3 5 "pod:default/c" ⟨100, 100, 0⟩ ⟨100, 100, 0⟩ (by decide)
    (by norm_num) (by norm_num)

/-! ### Claim about the snapshot cache -/

/-- Helper: the source's empty-check-plus-head pattern equals a `head?` match. -/
theorem head_match_value (l : List PMetric) (d : PValue) :
    (match l with | [] => d | m :: _ => m.value) =
    (match l.head? with | none => d | some m => m.value) := by
  cases l <;> rfl


/-- Claim C3: cache semantics.  (a) After `set c k s tput`, a `get` at any
`now` with `now - tput ≤ ttl` returns exactly `s`.  (b) Once `now - tput`
exceeds the TTL, `get` misses, removes the entry as a side effect, and a
subsequent `get` with no intervening `set` also misses (no resurrection).
(c) An invalid entry is never returned: whenever `get` returns a snapshot,
the stored entry satisfies `now - captured_at ≤ ttl`. -/
theorem claim_C3_cache_semantics :
    (∀ (c : KeplerMetricsCache) (k : String) (s : List PMetric) (tput now : ℚ),
       now - tput ≤ c.ttl_seconds →
       (KeplerMetricsCache.get (KeplerMetricsCache.set c k s tput) k now).1 = some s) ∧
    (∀ (c : KeplerMetricsCache) (k : String) (s : List PMetric) (tput now now' : ℚ),
       c.ttl_seconds < now - tput →
       (KeplerMetricsCache.get (KeplerMetricsCache.set c k s tput) k now).1 = none ∧
       ((KeplerMetricsCache.get (KeplerMetricsCache.set c k s tput) k now).2.cache.find?
           (fun p => p.1 == k) = none) ∧
       (KeplerMetricsCache.get
           ((KeplerMetricsCache.get (KeplerMetricsCache.set c k s tput) k now).2)
           k now').1 = none) ∧
    (∀ (c : KeplerMetricsCache) (k : String) (now : ℚ) (s : List PMetric),
       (KeplerMetricsCache.get c k now).1 = some s →
       ∃ (k0 : String) (t : ℚ), c.cache.find? (fun p => p.1 == k) = some (k0, (t, s)) ∧
         now - t ≤ c.ttl_seconds) := by
  refine ⟨?_, ?_, ?_⟩
  · intro c k s tput now h
    simp only [KeplerMetricsCache.get, KeplerMetricsCache.set, find?_dictUpdate]
    rw [if_neg (by simpa using not_lt.mpr h)]
  · intro c k s tput now now' h
    simp only [KeplerMetricsCache.get, KeplerMetricsCache.set, find?_dictUpdate]
    rw [if_pos (by simpa using h)]
    refine ⟨rfl, find?_filter_ne _ k, ?_⟩
    simp only [KeplerMetricsCache.get, find?_filter_ne]
  · intro c k now s h
    rw [KeplerMetricsCache.get] at h
    split at h
    · simp at h
    · rename_i k0 ts ms hf
      split at h
      · simp at h
      · rename_i hle
        refine ⟨k0, ts, ?_, le_of_not_lt hle⟩
        rw [hf]
        have hms : ms = s := by simpa using h
        rw [hms]

/-- Witness for C3 at concrete inputs, exercising all three conjuncts. -/
theorem claim_C3_witness :
    ((10 : ℚ) - 0 ≤ 60 ∧
      (KeplerMetricsCache.get
          (KeplerMetricsCache.set ⟨60, []⟩ "all_metrics" [⟨"m", [], PValue.num 1, none⟩] 0)
          "all_metrics" 10).1 = some [⟨"m", [], PValue.num 1, none⟩]) ∧
    ((60 : ℚ) < 100 - 0 ∧
      (KeplerMetricsCache.get
          (KeplerMetricsCache.set ⟨60, []⟩ "all_metrics" [⟨"m", [], PValue.num 1, none⟩] 0)
          "all_metrics" 100).1 = none ∧
      (KeplerMetricsCache.get
          ((KeplerMetricsCache.get
              (KeplerMetricsCache.set ⟨60, []⟩ "all_metrics"
                [⟨"m", [], PValue.num 1, none⟩] 0)
              "all_metrics" 100).2)
          "all_metrics" 101).1 = none) := by
  constructor
  · exact ⟨by norm_num,
      claim_C3_cache_semantics.1 ⟨60, []⟩ "all_metrics" [⟨"m", [], PValue.num 1, none⟩]
        0 10 (by norm_num)⟩
  · refine ⟨by norm_num, ?_, ?_⟩
    · exact (claim_C3_cache_semantics.2.1 ⟨60, []⟩ "all_metrics"
        [⟨"m", [], PValue.num 1, none⟩] 0 100 101 (by norm_num)).1
    · exact (claim_C3_cache_semantics.2.1 ⟨60, []⟩ "all_metrics"
        [⟨"m", [], PValue.num 1, none⟩] 0 100 101 (by norm_num)).2.2

/-! ### Claims about `get_metric_value` -/

/-- Counterexample to claim C8 as stated: with `name = ""`, the name filter
is disabled by Python truthiness, so `get_metric_value` returns the value
of the first record outright (here 2) instead of the default (here 5), even
though no record has name `""`. -/
theorem claim_C8_counterexample :
    (PMetric.mk "x" [] (PValue.num 2) none).name ≠ "" ∧
    get_metric_value [⟨"x", [], PValue.num 2, none⟩] "" none (PValue.num 5) =
      PValue.num 2 ∧
    PValue.num 2 ≠ PValue.num 5 := by
  refine ⟨by decide, rfl, by norm_num⟩

/-- Claim C8 as amended: for every NON-EMPTY name, `get_metric_value`
returns the value of the first record (in decode order) whose name equals
`name` and whose labels contain every requested pair, and the default when
no record matches.  (Being a pure function of the list, the result is
trivially stable for the same input.) -/
theorem claim_C8_first_match_value :
    ∀ (ms : List PMetric) (name : String) (labels : Option (List (String × String)))
      (default : PValue),
      name ≠ "" →
      get_metric_value ms name labels default =
        (match ms.find? (recordMatches name labels) with
         | some m => m.value
         | none => default) := by
  intro ms name labels default hname
  cases labels with
  | none =>
    have h1 : recordMatches name none = fun m => m.name == name := by
      funext m; rw [recordMatches, Bool.and_true]
    simp only [get_metric_value, filter_metrics, if_neg hname]
    rw [head_match_value, find?_eq_head?_filter, h1]
    cases ms.find? (fun m => m.name == name) <;> rfl
  | some l =>
    by_cases hl : l = []
    · subst hl
      have h1 : recordMatches name (some []) = fun m => m.name == name := by
        funext m; rw [recordMatches]; simp
      simp only [get_metric_value, filter_metrics, if_neg hname, if_pos rfl, if_true]
      rw [head_match_value, find?_eq_head?_filter, h1]
      cases ms.find? (fun m => m.name == name) <;> rfl
    · have h1 : (fun m => (l.all fun p => labelsGet m.labels p.1 == some p.2) &&
          (m.name == name)) = recordMatches name (some l) := by
        funext m; rw [recordMatches]; exact Bool.and_comm _ _
      simp only [get_metric_value, filter_metrics, if_neg hname, if_neg hl]
      rw [head_match_value, List.filter_filter, find?_eq_head?_filter, h1]
      cases ms.find? (recordMatches name (some l)) <;> rfl

/-- Witness for the amended C8 at a concrete input. -/
theorem claim_C8_witness :
    ("kepler_pod_cpu_joules_total" : String) ≠ "" ∧
    get_metric_value
        [⟨"other", [("zone", "dram")], PValue.num 7, none⟩,
         ⟨"kepler_pod_cpu_joules_total", [("zone", "package")], PValue.num 3, none⟩]
        "kepler_pod_cpu_joules_total" (some [("zone", "package")]) (PValue.num 0) =
      (match
          [⟨"other", [("zone", "dram")], PValue.num 7, none⟩,
           (⟨"kepler_pod_cpu_joules_total", [("zone", "package")], PValue.num 3,
             none⟩ : PMetric)].find?
          (recordMatches "kepler_pod_cpu_joules_total" (some [("zone", "package")])) with
       | some m => m.value
       | none => PValue.num 0) := by
  exact ⟨by decide,
    claim_C8_first_match_value _ "kepler_pod_cpu_joules_total"
      (some [("zone", "package")]) (PValue.num 0) (by decide)⟩

/-! ### Claims about the text decoder -/

/-- Counterexample to claim C6 as stated, in both directions.  The line
`m\x7ba="x\x7dy"\x7d NaN` is grammar-conformant (its label value `x\x7dy`
contains no quote at all), yet the decoder drops it: the source regex
forbids a closing brace anywhere inside the label section.  Conversely the
line `foo inf` does not match the grammar (`inf` is neither a decimal float
literal nor one of `NaN`/`+Inf`/`-Inf`), yet the decoder decodes it because
Python `float` accepts `inf`. -/
theorem claim_C6_counterexample :
    specParseLine "m\x7ba=\"x\x7dy\"\x7d NaN" =
      some ⟨"m", [("a", "x\x7dy")], PValue.nan, none⟩ ∧
    parse_metric_line "m\x7ba=\"x\x7dy\"\x7d NaN" = none ∧
    parse_prometheus_text "m\x7ba=\"x\x7dy\"\x7d NaN" = [] ∧
    specParseLine "foo inf" = none ∧
    parse_prometheus_text "foo inf" = [⟨"foo", [], PValue.inf, none⟩] := by
  refine ⟨by decide, by decide, by decide, by decide, by decide⟩

/-- Claim C6 as amended: a line the decoder's own pattern rejects (the
pattern differs from the spec grammar: the label section may not contain a
closing brace, and the value token is any non-whitespace run the float
parser accepts) is silently dropped, leaving every other line's decoding
unaffected, and every accepted line contributes its record in input
order. -/
theorem claim_C6_fault_isolation :
    (∀ (xs ys : List String) (b : String), procLine b = none →
       parseLines (xs ++ b :: ys) = parseLines (xs ++ ys)) ∧
    (∀ (xs ys : List String) (g : String) (m : PMetric), procLine g = some m →
       parseLines (xs ++ g :: ys) = parseLines xs ++ m :: parseLines ys) := by
  constructor
  · intro xs ys b hb
    simp [parseLines, List.filterMap_append, List.filterMap_cons, hb]
  · intro xs ys g m hg
    simp [parseLines, List.filterMap_append, List.filterMap_cons, hg]

/-- Witness for the amended C6 at concrete inputs: a malformed line
interleaved between two valid ones is absent from the output, and the valid
lines decode in order. -/
theorem claim_C6_witness :
    procLine "this is not a metric line" = none ∧
    procLine "b_metric NaN" = some ⟨"b_metric", [], PValue.nan, none⟩ ∧
    parseLines ["a_metric NaN", "this is not a metric line", "b_metric NaN"] =
      parseLines ["a_metric NaN", "b_metric NaN"] ∧
    parseLines ["a_metric NaN", "b_metric NaN"] =
      parseLines ["a_metric NaN"] ++
        (⟨"b_metric", [], PValue.nan, none⟩ : PMetric) :: parseLines [] := by
  refine ⟨by decide, by decide, ?_, ?_⟩
  · exact claim_C6_fault_isolation.1 ["a_metric NaN"] ["b_metric NaN"]
      "this is not a metric line" (by decide)
  · exact claim_C6_fault_isolation.2 ["a_metric NaN"] [] "b_metric NaN"
      ⟨"b_metric", [], PValue.nan, none⟩ (by decide)

/-- Counterexample to claim C7 as stated.  The grammar-conformant line
`m\x7ba="x\x7dy"\x7d NaN` (label value `x\x7dy`, no quote in it) is not
decoded at all, and the grammar-conformant line `m\x7ba="x\"y"\x7d NaN`
(label value `x"y` written with an escaped quote) is decoded into a record
whose label value is `x\` — not the line's label value: the decoder
processes no escapes and stops at the first quote. -/
theorem claim_C7_counterexample :
    specParseLine "m\x7ba=\"x\x7dy\"\x7d NaN" =
      some ⟨"m", [("a", "x\x7dy")], PValue.nan, none⟩ ∧
    parse_metric_line "m\x7ba=\"x\x7dy\"\x7d NaN" = none ∧
    specParseLine "m\x7ba=\"x\\\"y\"\x7d NaN" =
      some ⟨"m", [("a", "x\"y")], PValue.nan, none⟩ ∧
    parse_metric_line "m\x7ba=\"x\\\"y\"\x7d NaN" =
      some ⟨"m", [("a", "x\\")], PValue.nan, none⟩ ∧
    ("x\\" : String) ≠ "x\"y" := by
  refine ⟨by decide, by decide, by decide, by decide, by decide⟩

/-! ### Decoder correctness on the amended grammar: value-token lemmas -/

theorem head?_mem {α : Type} {l : List α} {c : α} (h : l.head? = some c) : c ∈ l := by
  cases l with
  | nil => simp at h
  | cons a t => simp at h; simp [h]

theorem dropWhile_eq_self_of_head {p : Char → Bool} {cs : List Char}
    (h : ∀ c, cs.head? = some c → p c = false) : cs.dropWhile p = cs := by
  cases cs with
  | nil => rfl
  | cons c t => exact List.dropWhile_cons_of_neg (by simp [h c rfl])

theorem stripWS_eq_self {cs : List Char} (h : ∀ c ∈ cs, isWS c = false) :
    stripWS cs = cs := by
  rw [stripWS]
  rw [dropWhile_eq_self_of_head (fun c hc => h c (head?_mem hc))]
  rw [dropWhile_eq_self_of_head (fun c hc => h c (List.mem_reverse.mp (head?_mem hc)))]
  exact List.reverse_reverse cs

theorem dpAux_digits : ∀ (ds : List Char), (∀ c ∈ ds, c.isDigit = true) →
    dpAux ds = (ds, []) := by
  intro ds
  induction ds with
  | nil => intro _; rfl
  | cons d t ih =>
    intro h
    have hd : d.isDigit = true := h d (by simp)
    have hne : d ≠ '_' := by
      intro he; rw [he] at hd; simp at hd
    rw [dpAux.eq_def]
    split
    · rename_i heq; simp at heq
    · rename_i c rest heq
      rw [List.cons.injEq] at heq
      exact absurd heq.1 hne
    · rename_i c rest hcond heq
      rw [List.cons.injEq] at heq
      obtain ⟨hc, hrest⟩ := heq
      subst hc; subst hrest
      simp only [if_pos hd, ih (fun c hc => h c (by simp [hc]))]

theorem dpAux_digits_dot : ∀ (ds tail : List Char), (∀ c ∈ ds, c.isDigit = true) →
    dpAux (ds ++ '.' :: tail) = (ds, '.' :: tail) := by
  intro ds tail
  induction ds with
  | nil => intro _; rfl
  | cons d t ih =>
    intro h
    have hd : d.isDigit = true := h d (by simp)
    have hne : d ≠ '_' := by
      intro he; rw [he] at hd; simp at hd
    rw [List.cons_append, dpAux.eq_def]
    split
    · rename_i heq; simp at heq
    · rename_i c rest heq
      rw [List.cons.injEq] at heq
      exact absurd heq.1 hne
    · rename_i c rest hcond heq
      rw [List.cons.injEq] at heq
      obtain ⟨hc, hrest⟩ := heq
      subst hc
      rw [← hrest]
      simp only [if_pos hd, ih (fun c hc => h c (by simp [hc]))]

theorem parseDigitpart_digits {ds : List Char} (hne : ds ≠ [])
    (h : ∀ c ∈ ds, c.isDigit = true) : parseDigitpart ds = some (ds, []) := by
  cases ds with
  | nil => exact absurd rfl hne
  | cons d t =>
    rw [parseDigitpart, if_pos (h d (by simp))]
    rw [dpAux_digits _ h]

theorem parseDigitpart_digits_dot {ds : List Char} (tail : List Char) (hne : ds ≠ [])
    (h : ∀ c ∈ ds, c.isDigit = true) :
    parseDigitpart (ds ++ '.' :: tail) = some (ds, '.' :: tail) := by
  cases ds with
  | nil => exact absurd rfl hne
  | cons d t =>
    rw [List.cons_append, parseDigitpart, if_pos (h d (by simp))]
    rw [← List.cons_append, dpAux_digits_dot _ _ h]

theorem all_of_dropWhile_nil {p : Char → Bool} :
    ∀ (l : List Char), l.dropWhile p = [] → ∀ c ∈ l, p c = true := by
  intro l
  induction l with
  | nil => intro _ c hc; simp at hc
  | cons a t ih =>
    intro h c hc
    by_cases ha : p a = true
    · rw [List.dropWhile_cons_of_pos ha] at h
      rcases hc with _ | hc
      · exact ha
      · exact ih h c (by assumption)
    · rw [List.dropWhile_cons_of_neg (by simpa using ha)] at h
      simp at h

/-- Every successful spec decimal body is digits, or digits-dot-digits (one
side possibly empty), and denotes the corresponding mantissa. -/
theorem specDecimalBody_cases {cs : List Char} {q : ℚ}
    (h : specDecimalBody cs = some q) :
    (cs ≠ [] ∧ (∀ c ∈ cs, c.isDigit = true) ∧ q = qOfMantissa cs []) ∨
    (∃ ip fp, cs = ip ++ '.' :: fp ∧ (ip ≠ [] ∨ fp ≠ []) ∧
      (∀ c ∈ ip, c.isDigit = true) ∧ (∀ c ∈ fp, c.isDigit = true) ∧
      q = qOfMantissa ip fp) := by
  have hsplit : cs.takeWhile Char.isDigit ++ cs.dropWhile Char.isDigit = cs :=
    List.takeWhile_append_dropWhile Char.isDigit cs
  simp only [specDecimalBody] at h
  split at h
  · rename_i hdrop
    have hcs : cs.takeWhile Char.isDigit = cs := by
      rw [hdrop] at hsplit; simpa using hsplit
    rw [hcs] at h
    split at h
    · exact absurd h (by simp)
    · rename_i hip
      left
      exact ⟨hip, all_of_dropWhile_nil cs hdrop, by simpa using h.symm⟩
  · rename_i r2 hdrop
    split at h
    · rename_i hcond
      have hsplit2 : r2.takeWhile Char.isDigit ++ r2.dropWhile Char.isDigit = r2 :=
        List.takeWhile_append_dropWhile Char.isDigit r2
      have hr2 : r2.takeWhile Char.isDigit = r2 := by
        rw [hcond.1] at hsplit2; simpa using hsplit2
      right
      refine ⟨cs.takeWhile Char.isDigit, r2.takeWhile Char.isDigit, ?_, hcond.2, ?_, ?_, ?_⟩
      · rw [hr2, ← hdrop, hsplit]
      · intro c hc; exact mem_takeWhile_of _ c hc
      · intro c hc; exact mem_takeWhile_of _ c hc
      · simpa using h.symm
    · exact absurd h (by simp)
  · exact absurd h (by simp)

/-- On every spec decimal body the Python float number parser succeeds with
the same value. -/
theorem parseNumberNoSign_of_spec {cs : List Char} {q : ℚ}
    (h : specDecimalBody cs = some q) : parseNumberNoSign cs = some q := by
  rcases specDecimalBody_cases h with ⟨hne, hdig, hq⟩ | ⟨ip, fp, hcs, hor, hip, hfp, hq⟩
  · subst hq
    simp only [parseNumberNoSign, parseDigitpart_digits hne hdig]
    rfl
  · subst hcs
    by_cases hipne : ip = []
    · subst hipne
      have hfpne : fp ≠ [] := by
        rcases hor with h1 | h1
        · exact absurd rfl h1
        · exact h1
      have hdot : parseDigitpart ('.' :: fp) = none := by simp [parseDigitpart]
      subst hq
      simp only [List.nil_append, parseNumberNoSign, hdot,
        parseDigitpart_digits hfpne hfp]
      rfl
    · by_cases hfpne : fp = []
      · subst hfpne
        subst hq
        have hnil : parseDigitpart ([] : List Char) = none := rfl
        simp only [parseNumberNoSign, parseDigitpart_digits_dot [] hipne hip, hnil]
        rfl
      · subst hq
        simp only [parseNumberNoSign, parseDigitpart_digits_dot fp hipne hip,
          parseDigitpart_digits hfpne hfp]
        rfl

theorem val_char_ok {c : Char} (h : c.isDigit = true ∨ c = '.') :
    isWS c = false ∧ c ≠ '\x7b' := by
  rcases h with hd | hdot
  · constructor
    · cases hceq : isWS c
      · rfl
      · exfalso
        simp only [isWS, Bool.or_eq_true, decide_eq_true_eq] at hceq
        rcases hceq with ((((h' | h') | h') | h') | h') | h' <;> (subst h'; simp at hd)
    · intro he; subst he; simp at hd
  · subst hdot; exact ⟨by decide, by decide⟩

/-- A successful spec value token is nonempty and consists of
non-whitespace characters, none of which is an opening brace. -/
theorem specValueTok_chars {v : List Char} {pv : PValue}
    (h : specValueTok v = some pv) :
    v ≠ [] ∧ ∀ c ∈ v, isWS c = false ∧ c ≠ '\x7b' := by
  by_cases h1 : v = ['N', 'a', 'N']
  · subst h1; exact ⟨by decide, by decide⟩
  by_cases h2 : v = ['+', 'I', 'n', 'f']
  · subst h2; exact ⟨by decide, by decide⟩
  by_cases h3 : v = ['-', 'I', 'n', 'f']
  · subst h3; exact ⟨by decide, by decide⟩
  simp only [specValueTok, if_neg h1, if_neg h2, if_neg h3] at h
  cases hb : specDecimalBody (signSplit v).2 with
  | none => rw [hb] at h; simp at h
  | some q =>
    have hbody : ∀ c ∈ (signSplit v).2, c.isDigit = true ∨ c = '.' := by
      rcases specDecimalBody_cases hb with ⟨_, hdig, _⟩ | ⟨ip, fp, hcs, _, hip, hfp, _⟩
      · intro c hc; exact Or.inl (hdig c hc)
      · intro c hc
        rw [hcs] at hc
        rcases List.mem_append.mp hc with hc1 | hc2
        · exact Or.inl (hip c hc1)
        · rcases hc2 with _ | hc3
          · exact Or.inr rfl
          · exact Or.inl (hfp c (by assumption))
    cases v with
    | nil =>
      rw [show specDecimalBody (signSplit ([] : List Char)).2 = none from rfl] at hb
      simp at hb
    | cons c r =>
      by_cases hcp : c = '+'
      · subst hcp
        refine ⟨by simp, ?_⟩
        intro d hd
        rcases hd with _ | hd2
        · exact ⟨by decide, by decide⟩
        · exact val_char_ok (hbody d (by simp [signSplit]; assumption))
      by_cases hcm : c = '-'
      · subst hcm
        refine ⟨by simp, ?_⟩
        intro d hd
        rcases hd with _ | hd2
        · exact ⟨by decide, by decide⟩
        · exact val_char_ok (hbody d (by simp [signSplit]; assumption))
      · refine ⟨by simp, ?_⟩
        intro d hd
        refine val_char_ok (hbody d ?_)
        simp only [signSplit, if_neg hcp, if_neg hcm]
        exact hd

/-- On every spec value token, Python `float` succeeds with the same
value. -/
theorem pyFloat_of_specValueTok {v : List Char} {pv : PValue}
    (h : specValueTok v = some pv) : pyFloatOfString ⟨v⟩ = some pv := by
  have hchars := specValueTok_chars h
  by_cases h1 : v = ['N', 'a', 'N']
  · subst h1
    have : pv = PValue.nan := by
      rw [show specValueTok ['N', 'a', 'N'] = some PValue.nan from rfl] at h
      simpa using h.symm
    subst this
    decide
  by_cases h2 : v = ['+', 'I', 'n', 'f']
  · subst h2
    have : pv = PValue.inf := by
      rw [show specValueTok ['+', 'I', 'n', 'f'] = some PValue.inf from rfl] at h
      simpa using h.symm
    subst this
    decide
  by_cases h3 : v = ['-', 'I', 'n', 'f']
  · subst h3
    have : pv = PValue.neginf := by
      rw [show specValueTok ['-', 'I', 'n', 'f'] = some PValue.neginf from rfl] at h
      simpa using h.symm
    subst this
    decide
  simp only [specValueTok, if_neg h1, if_neg h2, if_neg h3] at h
  cases hb : specDecimalBody (signSplit v).2 with
  | none => rw [hb] at h; simp at h
  | some q =>
    rw [hb] at h
    simp only [Option.some.injEq] at h
    have hs : stripWS v = v := stripWS_eq_self (fun c hc => (hchars.2 c hc).1)
    simp only [pyFloatOfString, hs, parseNumberNoSign_of_spec hb, h]

/-! ### Decoder correctness on the amended grammar: label-section lemmas -/

theorem string_eta (s : String) : (⟨s.data⟩ : String) = s := by
  cases s; rfl

/-- A valid key is a nonempty run of key characters. -/
theorem validKeyB_shape {k : String} (h : validKeyB k = true) :
    ∃ c r, k.data = c :: r ∧ isKeyStart c = true ∧ (∀ d ∈ r, isKeyChar d = true) := by
  rw [validKeyB] at h
  split at h
  · rename_i c r heq
    exact ⟨c, r, heq, (Bool.and_eq_true _ _ |>.mp h).1, by
      intro d hd
      have := (Bool.and_eq_true _ _ |>.mp h).2
      rw [List.all_eq_true] at this
      exact this d hd⟩
  · simp at h

theorem keyStart_keyChar {c : Char} (h : isKeyStart c = true) : isKeyChar c = true := by
  rw [isKeyStart] at h
  rw [isKeyChar]
  rcases Bool.or_eq_true _ _ |>.mp h with h1 | h1
  · simp [h1]
  · simp [h1]

theorem tryPair_pairText {k val : String} (suffix : List Char)
    (hk : validKeyB k = true)
    (hval : ∀ c ∈ val.data, c ≠ '"') :
    tryPair (labelPairText (k, val) ++ suffix) = some (k, val, suffix) := by
  obtain ⟨c, r, hkd, hcs, hrs⟩ := validKeyB_shape hk
  have hkchars : ∀ d ∈ k.data, isKeyChar d = true := by
    intro d hd
    rw [hkd] at hd
    rcases hd with _ | hd2
    · exact keyStart_keyChar hcs
    · exact hrs d (by assumption)
  have happ : labelPairText (k, val) ++ suffix =
      k.data ++ ('=' :: '"' :: (val.data ++ '"' :: suffix)) := by
    rw [labelPairText]
    simp [List.append_assoc]
  have htake := takeWhile_append_of k.data ('=' :: '"' :: (val.data ++ '"' :: suffix))
    hkchars (by intro d hd; simp at hd; subst hd; decide)
  have hvtake := takeWhile_append_of (p := fun c => c ≠ '"') val.data ('"' :: suffix)
    (by intro d hd; simpa using hval d hd) (by intro d hd; simp at hd; subst hd; simp)
  rw [happ]
  simp only [tryPair, htake.1, htake.2, hvtake.1, hvtake.2, string_eta]

/-- One findall step over a valid pair followed by arbitrary text. -/
theorem scanLabelsAux_step (p : String × String) (tail : List Char) (f : ℕ)
    (hk : validKeyB p.1 = true) (hval : ∀ c ∈ p.2.data, c ≠ '"') :
    scanLabelsAux (f + 1) (labelPairText p ++ tail) =
      (p.1, p.2) :: scanLabelsAux f tail := by
  obtain ⟨c, r, hkd, hcs, hrs⟩ := validKeyB_shape hk
  have hexp : labelPairText p ++ tail =
      c :: (r ++ ('=' :: '"' :: (p.2.data ++ '"' :: tail))) := by
    rw [labelPairText, hkd]
    simp [List.append_assoc]
  have hpair : tryPair (c :: (r ++ ('=' :: '"' :: (p.2.data ++ '"' :: tail)))) =
      some (p.1, p.2, tail) := by
    rw [← hexp, ← Prod.mk.eta (p := p)]
    exact tryPair_pairText tail hk hval
  rw [hexp, scanLabelsAux, if_pos hcs, hpair]

/-- The findall scan over the text of a valid label list recovers exactly the
pairs. -/
theorem scanLabelsAux_labelListText :
    ∀ (ps : List (String × String)) (fuel : ℕ),
      (∀ p ∈ ps, validKeyB p.1 = true ∧ (∀ c ∈ p.2.data, c ≠ '"')) →
      (labelListText ps).length ≤ fuel →
      scanLabelsAux fuel (labelListText ps) = ps := by
  intro ps
  induction ps with
  | nil =>
    intro fuel _ _
    cases fuel <;> rfl
  | cons p rest ih =>
    intro fuel hv hlen
    have hp := hv p (by simp)
    cases rest with
    | nil =>
      have htext : labelListText [p] = labelPairText p ++ [] := by
        rw [labelListText]
      rw [htext] at hlen ⊢
      cases fuel with
      | zero =>
        rw [labelPairText] at hlen
        simp at hlen
      | succ f =>
        rw [scanLabelsAux_step p [] f hp.1 hp.2]
        cases f <;> rfl
    | cons q rs =>
      have htext : labelListText (p :: q :: rs) =
          labelPairText p ++ (',' :: labelListText (q :: rs)) := by
        rw [labelListText]
      rw [htext] at hlen ⊢
      have hplen : 1 ≤ (labelPairText p).length := by
        rw [labelPairText]
        simp
        omega
      rw [List.length_append] at hlen
      cases fuel with
      | zero => omega
      | succ f =>
        rw [scanLabelsAux_step p _ f hp.1 hp.2]
        simp only [List.length_cons] at hlen
        cases f with
        | zero => omega
        | succ f2 =>
          rw [scanLabelsAux, if_neg (by decide)]
          rw [ih f2 (fun x hx => hv x (by simp [hx])) (by omega)]

theorem takeWhile_all {p : Char → Bool} {l : List Char} (h : ∀ c ∈ l, p c = true) :
    l.takeWhile p = l ∧ l.dropWhile p = [] := by
  have := takeWhile_append_of l [] h (by intro c hc; simp at hc)
  simpa using this

theorem keyStart_not_brace {c : Char} (h : isKeyStart c = true) : isBrace c = false := by
  cases hb : isBrace c
  · rfl
  · exfalso
    simp only [isBrace, Bool.or_eq_true, decide_eq_true_eq] at hb
    rcases hb with h1 | h1 <;> (subst h1; simp [isKeyStart] at h)

theorem keyChar_ne_close {c : Char} (h : isKeyChar c = true) : c ≠ '\x7d' := by
  intro he; subst he; simp [isKeyChar] at h

theorem validKeyB_chars {k : String} (h : validKeyB k = true) :
    ∀ d ∈ k.data, isKeyChar d = true := by
  obtain ⟨c, r, hkd, hcs, hrs⟩ := validKeyB_shape h
  intro d hd
  rw [hkd] at hd
  rcases hd with _ | hd2
  · exact keyStart_keyChar hcs
  · exact hrs d (by assumption)

theorem validLabelValB_chars {v : String} (h : validLabelValB v = true) :
    ∀ c ∈ v.data, c ≠ '"' ∧ c ≠ '\x7d' := by
  rw [validLabelValB, List.all_eq_true] at h
  intro c hc
  have := h c hc
  simp only [Bool.and_eq_true, decide_eq_true_eq] at this
  exact this

/-- No closing brace occurs in the text of a valid label list. -/
theorem labelListText_mem :
    ∀ (ps : List (String × String)),
      (∀ p ∈ ps, validKeyB p.1 = true ∧ validLabelValB p.2 = true) →
      ∀ c ∈ labelListText ps, c ≠ '\x7d' := by
  intro ps
  induction ps with
  | nil => intro _ c hc; simp [labelListText] at hc
  | cons p rest ih =>
    intro hv c hc
    have hp := hv p (by simp)
    have hpair : ∀ c ∈ labelPairText p, c ≠ '\x7d' := by
      intro d hd
      rw [labelPairText] at hd
      rcases List.mem_append.mp hd with hk | hrest
      · exact keyChar_ne_close (validKeyB_chars hp.1 d hk)
      · simp only [List.mem_cons, List.mem_append, List.mem_singleton] at hrest
        rcases hrest with h1 | h1 | h1 | (h1 | h1)
        · subst h1; decide
        · subst h1; decide
        · exact (validLabelValB_chars hp.2 d h1).2
        · subst h1; decide
        · simp at h1
    cases rest with
    | nil =>
      rw [show labelListText [p] = labelPairText p ++ [] from by rw [labelListText]] at hc
      rw [List.append_nil] at hc
      exact hpair c hc
    | cons q rs =>
      rw [show labelListText (p :: q :: rs) =
          labelPairText p ++ (',' :: labelListText (q :: rs)) from by rw [labelListText]] at hc
      rcases List.mem_append.mp hc with hc1 | hc2
      · exact hpair c hc1
      · rcases hc2 with _ | hc3
        · decide
        · exact ih (fun x hx => hv x (by simp [hx])) c (by assumption)

/-- The text of a nonempty valid label list ends in a quote. -/
theorem labelListText_concat :
    ∀ (p : String × String) (rest : List (String × String)),
      ∃ pre, labelListText (p :: rest) = pre ++ ['"'] := by
  intro p rest
  induction rest generalizing p with
  | nil =>
    refine ⟨p.1.data ++ '=' :: '"' :: p.2.data, ?_⟩
    rw [labelListText, labelPairText]
    simp
  | cons q rs ih =>
    obtain ⟨pre, hpre⟩ := ih q
    refine ⟨labelPairText p ++ ',' :: pre, ?_⟩
    rw [labelListText]
    rw [hpre]
    simp [List.append_assoc]

/-- Stripping the braces from a brace-wrapped label text recovers the
inside, provided the inside neither starts nor ends with a brace. -/
theorem pyStripBraces_wrap {inside : List Char}
    (hhead : ∀ c, inside.head? = some c → isBrace c = false)
    (hlast : ∀ c, inside.getLast? = some c → isBrace c = false) :
    pyStripBraces ('\x7b' :: (inside ++ ['\x7d'])) = inside := by
  rw [pyStripBraces]
  rw [List.dropWhile_cons_of_pos (by decide)]
  cases inside with
  | nil => rfl
  | cons c t =>
    rw [List.cons_append, List.dropWhile_cons_of_neg (by simp [hhead c rfl])]
    rw [← List.cons_append, List.reverse_append]
    simp only [List.reverse_cons, List.reverse_nil, List.nil_append, List.singleton_append]
    rw [List.dropWhile_cons_of_pos (by decide)]
    rw [dropWhile_eq_self_of_head (by
      intro d hd
      rw [← List.reverse_cons, List.head?_reverse] at hd
      exact hlast d hd)]
    rw [← List.reverse_cons]
    exact List.reverse_reverse _

/-- Running `_parse_labels` on the brace-wrapped text of a valid label list yields
exactly the dict of the pairs (duplicate keys last-wins). -/
theorem parse_labels_wrap (ps : List (String × String))
    (hv : ∀ p ∈ ps, validKeyB p.1 = true ∧ validLabelValB p.2 = true) :
    parse_labels ⟨'\x7b' :: (labelListText ps ++ ['\x7d'])⟩ = dictOfPairs ps := by
  cases ps with
  | nil => rfl
  | cons p rest =>
    rw [parse_labels]
    have hd : (String.mk ('\x7b' :: (labelListText (p :: rest) ++ ['\x7d']))).data =
        '\x7b' :: (labelListText (p :: rest) ++ ['\x7d']) := rfl
    rw [hd]
    obtain ⟨c, r, hkd, hcs, hrs⟩ := validKeyB_shape (hv p (by simp)).1
    obtain ⟨pre, hpre⟩ := labelListText_concat p rest
    have hstrip : pyStripBraces ('\x7b' :: (labelListText (p :: rest) ++ ['\x7d'])) =
        labelListText (p :: rest) := by
      refine pyStripBraces_wrap ?_ ?_
      · intro d hd2
        cases hrest : rest with
        | nil =>
          rw [hrest, show labelListText [p] = labelPairText p ++ [] from by
            rw [labelListText], List.append_nil, labelPairText, hkd] at hd2
          simp at hd2
          rw [← hd2]
          exact keyStart_not_brace hcs
        | cons q rs =>
          rw [hrest, show labelListText (p :: q :: rs) =
              labelPairText p ++ (',' :: labelListText (q :: rs)) from by
            rw [labelListText], labelPairText, hkd] at hd2
          simp at hd2
          rw [← hd2]
          exact keyStart_not_brace hcs
      · intro d hd2
        rw [hpre, List.getLast?_concat] at hd2
        cases hd2
        decide
    rw [hstrip, scanLabels]
    rw [scanLabelsAux_labelListText (p :: rest) _
      (fun x hx => ⟨(hv x hx).1, fun cc hcc => (validLabelValB_chars (hv x hx).2 cc hcc).1⟩)
      (le_refl _)]

/-- Behaviour of `splitValueTail` on a value token with no trailing timestamp. -/
theorem splitValueTail_no_ts {v : List Char} (hne : v ≠ [])
    (hnws : ∀ c ∈ v, isWS c = false) : splitValueTail v = some (v, none) := by
  have htake := takeWhile_all (p := fun c => !isWS c) (l := v)
    (by intro c hc; simpa using hnws c hc)
  rw [splitValueTail]
  simp only [htake.1, htake.2]
  rw [if_neg hne]
  rfl

/-- Behaviour of `splitValueTail` on a value token followed by whitespace and a digit
timestamp. -/
theorem splitValueTail_ts {v ws2 ds : List Char} (hne : v ≠ [])
    (hnws : ∀ c ∈ v, isWS c = false)
    (hws : ws2 ≠ []) (hws2 : ∀ c ∈ ws2, isWS c = true)
    (hds : ds ≠ []) (hdig : ∀ c ∈ ds, c.isDigit = true) :
    splitValueTail (v ++ (ws2 ++ ds)) = some (v, some ds) := by
  have hdshead : ∀ c, ds.head? = some c → isWS c = false := by
    intro c hc
    exact (val_char_ok (Or.inl (hdig c (head?_mem hc)))).1
  have hwhead : ∀ c, (ws2 ++ ds).head? = some c → (!isWS c) = false := by
    intro c hc
    cases ws2 with
    | nil => exact absurd rfl hws
    | cons w t =>
      simp at hc
      rw [← hc]
      simp [hws2 w (by simp)]
  have htake := takeWhile_append_of (p := fun c => !isWS c) v (ws2 ++ ds)
    (by intro c hc; simpa using hnws c hc) hwhead
  have hdrop := takeWhile_append_of (p := isWS) ws2 ds hws2 hdshead
  rw [splitValueTail]
  simp only [htake.1, htake.2]
  rw [if_neg hne]
  rw [if_neg (by
    intro hcontra
    rcases List.append_eq_nil.mp hcontra with ⟨h1, _⟩
    exact hws h1)]
  simp only [hdrop.2]
  rw [if_pos ⟨hds, by rw [List.all_eq_true]; exact hdig⟩]

/-- A valid metric name is a nonempty name-start followed by name
characters. -/
theorem validNameB_shape {nm : String} (h : validNameB nm = true) :
    ∃ c r, nm.data = c :: r ∧ isNameStart c = true ∧ (∀ d ∈ r, isNameChar d = true) := by
  rw [validNameB] at h
  split at h
  · rename_i c r heq
    exact ⟨c, r, heq, (Bool.and_eq_true _ _ |>.mp h).1, by
      intro d hd
      have := (Bool.and_eq_true _ _ |>.mp h).2
      rw [List.all_eq_true] at this
      exact this d hd⟩
  · simp at h

theorem ws_not_nameChar {c : Char} (h : isWS c = true) : isNameChar c = false := by
  simp only [isWS, Bool.or_eq_true, decide_eq_true_eq] at h
  rcases h with ((((h' | h') | h') | h') | h') | h' <;> (subst h'; decide)

theorem mkPMetric_of_pyFloat {nm : List Char} {lbl : Option (List Char)}
    {v : List Char} {ts : Option (List Char)} {pv : PValue}
    (h : pyFloatOfString ⟨v⟩ = some pv) :
    mkPMetric nm lbl v ts =
      some ⟨⟨nm⟩,
        (match lbl with
         | some l => parse_labels ⟨l⟩
         | none => []), pv, ts.map digitsToNat⟩ := by
  rw [mkPMetric.eq_def]
  simp only [h]

/-- Claim C7 as amended: every line of the grammar
name [ brace-wrapped label list ] ws value [ ws timestamp ], where label
values contain neither a quote nor a closing brace (escapes are not
processed), decodes to the record carrying the line's name, labels
(duplicate keys last-wins), value, and optional timestamp. -/
theorem claim_C7_line_grammar_decode :
    ∀ (nm : String) (lbls : Option (List (String × String))) (ws1 v : List Char)
      (pv : PValue) (ts : Option (List Char × List Char)),
      validNameB nm = true →
      (match lbls with
       | none => True
       | some ps => ∀ p ∈ ps, validKeyB p.1 = true ∧ validLabelValB p.2 = true) →
      wsRunB ws1 = true →
      specValueTok v = some pv →
      tsWF ts →
      parse_metric_line ⟨lineText nm lbls ws1 v ts⟩ =
        some ⟨nm,
          (match lbls with
           | none => []
           | some ps => dictOfPairs ps), pv,
          ts.map (fun pr => digitsToNat pr.2)⟩ := by
  intro nm lbls ws1 v pv ts hnm hlbl hws hv hts
  obtain ⟨c, r, hnd, hcs, hrs⟩ := validNameB_shape hnm
  have hvchars := specValueTok_chars hv
  have hvne : v ≠ [] := hvchars.1
  have hvnws : ∀ d ∈ v, isWS d = false := fun d hd => (hvchars.2 d hd).1
  have hpf : pyFloatOfString ⟨v⟩ = some pv := pyFloat_of_specValueTok hv
  have hws1 : ws1 ≠ [] ∧ ∀ d ∈ ws1, isWS d = true := by
    rw [wsRunB, Bool.and_eq_true] at hws
    refine ⟨by simpa using hws.1, ?_⟩
    have := hws.2
    rw [List.all_eq_true] at this
    exact this
  have hvhead : ∀ d, v.head? = some d → isWS d = false := fun d hd =>
    hvnws d (head?_mem hd)
  have hsplitv : splitValueTail
      (v ++ tsText ts) =
      some (v, ts.map (fun pr => pr.2)) := by
    cases ts with
    | none => simpa [tsText] using splitValueTail_no_ts hvne hvnws
    | some pr =>
      obtain ⟨hw, hd⟩ := hts
      rw [wsRunB, Bool.and_eq_true] at hw
      rw [digitRunB, Bool.and_eq_true] at hd
      simp only [tsText]
      exact splitValueTail_ts hvne hvnws (by simpa using hw.1)
        (by rw [List.all_eq_true] at hw; exact fun d hd2 => hw.2 d hd2)
        (by simpa using hd.1)
        (by rw [List.all_eq_true] at hd; exact fun d hd2 => hd.2 d hd2)
  have hdropws1 : ∀ (z : List Char), (∀ d, z.head? = some d → isWS d = false) →
      (ws1 ++ z).takeWhile isWS = ws1 ∧ (ws1 ++ z).dropWhile isWS = z :=
    fun z hz => takeWhile_append_of ws1 z hws1.2 hz
  have hvz : ∀ d, (v ++ tsText ts).head? =
      some d → isWS d = false := by
    intro d hd
    cases v with
    | nil => exact absurd rfl hvne
    | cons vc vr =>
      rw [List.cons_append] at hd
      simp at hd
      rw [← hd]
      exact hvnws vc (by simp)
  cases lbls with
  | some ps =>
    have hline : lineText nm (some ps) ws1 v ts =
        c :: (r ++ ('\x7b' :: (labelListText ps ++ ('\x7d' ::
          (ws1 ++ (v ++ tsText ts)))))) := by
      rw [lineText, hnd, lblText]
      simp [List.append_assoc]
    rw [parse_metric_line, show (String.mk (lineText nm (some ps) ws1 v ts)).data =
      lineText nm (some ps) ws1 v ts from rfl, hline]
    rw [parseLineChars, if_pos hcs]
    have hname := takeWhile_append_of (p := isNameChar) r
      ('\x7b' :: (labelListText ps ++ ('\x7d' ::
        (ws1 ++ (v ++ tsText ts)))))
      hrs (by intro d hd; simp at hd; subst hd; decide)
    simp only [hname.1, hname.2]
    rw [List.dropWhile_cons_of_neg (by decide)]
    have hinside := takeWhile_append_of (p := fun d => d ≠ '\x7d')
      (labelListText ps)
      ('\x7d' :: (ws1 ++ (v ++ tsText ts)))
      (by intro d hd; simpa using labelListText_mem ps hlbl d hd)
      (by intro d hd; simp at hd; subst hd; simp)
    simp only [hinside.1, hinside.2]
    rw [(hdropws1 _ hvz).1, (hdropws1 _ hvz).2]
    rw [if_neg hws1.1]
    rw [hsplitv]
    simp only [mkPMetric_of_pyFloat hpf]
    rw [parse_labels_wrap ps hlbl]
    rw [show (⟨c :: r⟩ : String) = nm from by rw [← hnd]]
    cases ts <;> rfl
  | none =>
    have hline : lineText nm none ws1 v ts =
        c :: (r ++ (ws1 ++ (v ++ tsText ts))) := by
      rw [lineText, hnd, lblText]
      simp [List.append_assoc]
    rw [parse_metric_line, show (String.mk (lineText nm none ws1 v ts)).data =
      lineText nm none ws1 v ts from rfl, hline]
    rw [parseLineChars, if_pos hcs]
    have hname := takeWhile_append_of (p := isNameChar) r
      (ws1 ++ (v ++ tsText ts))
      hrs (by
        intro d hd
        cases hw1 : ws1 with
        | nil => exact absurd hw1 hws1.1
        | cons w wt =>
          rw [hw1, List.cons_append] at hd
          simp at hd
          rw [← hd]
          exact ws_not_nameChar (hws1.2 w (by rw [hw1]; simp)))
    simp only [hname.1, hname.2]
    rw [(hdropws1 _ hvz).2]
    have hfall : fallbackNoLabels (c :: r)
        (ws1 ++ (v ++ tsText ts)) =
        some ⟨⟨c :: r⟩, [], pv,
          (ts.map (fun pr => pr.2)).map digitsToNat⟩ := by
      rw [fallbackNoLabels]
      rw [(hdropws1 _ hvz).1]
      rw [if_neg hws1.1]
      rw [(hdropws1 _ hvz).2]
      rw [hsplitv]
      simp only [mkPMetric_of_pyFloat hpf]
    cases v with
    | nil => exact absurd rfl hvne
    | cons vc vr =>
      have hvcne : vc ≠ '\x7b' := (hvchars.2 vc (by simp)).2
      rw [List.cons_append]
      split
      · rename_i r2 heq
        rw [List.cons.injEq] at heq
        exact absurd heq.1 hvcne
      · rw [← List.cons_append, hfall]
        rw [show (⟨c :: r⟩ : String) = nm from by rw [← hnd]]
        cases ts <;> rfl

/-- Witness for the amended C7: the spec's example line decodes to the
stated record, via the general grammar-decode theorem. -/
theorem claim_C7_witness :
    validNameB "kepler_pod_cpu_watts" = true ∧
    specValueTok ['3', '.', '2', '5'] = some (PValue.num (13 / 4)) ∧
    parse_metric_line
        "kepler_pod_cpu_watts\x7bpod_name=\"nginx\",zone=\"package\"\x7d 3.25" =
      some ⟨"kepler_pod_cpu_watts", [("pod_name", "nginx"), ("zone", "package")],
        PValue.num (13 / 4), none⟩ := by
  have hval : specValueTok ['3', '.', '2', '5'] = some (PValue.num (13 / 4)) := by
    have h0 : specValueTok ['3', '.', '2', '5'] =
        some (PValue.num (((1 : ℤ) : ℚ) * qOfMantissa ['3'] ['2', '5'])) := rfl
    rw [h0]
    have h1 : digitsToNat (['3'] ++ ['2', '5']) = 325 := rfl
    rw [qOfMantissa, h1]
    norm_num
  have happ := claim_C7_line_grammar_decode "kepler_pod_cpu_watts"
    (some [("pod_name", "nginx"), ("zone", "package")]) [' '] ['3', '.', '2', '5']
    (PValue.num (13 / 4)) none (by decide) (by decide) (by decide) hval trivial
  have hstr : (⟨lineText "kepler_pod_cpu_watts"
      (some [("pod_name", "nginx"), ("zone", "package")]) [' ']
      ['3', '.', '2', '5'] none⟩ : String) =
      "kepler_pod_cpu_watts\x7bpod_name=\"nginx\",zone=\"package\"\x7d 3.25" := by
    decide
  have hdict : dictOfPairs [("pod_name", "nginx"), ("zone", "package")] =
      [("pod_name", "nginx"), ("zone", "package")] := by decide
  refine ⟨by decide, hval, ?_⟩
  rw [← hstr, happ]
  simp only [hdict, Option.map_none']
